import Mathlib

/-!
Verification of the JSON semantic-equality and canonicalization engine of
`internal/provider/json_semantic_equality.go` (terraform-provider-n8n).

The Go code parses JSON text with `encoding/json` into dynamic values
(`nil`, `bool`, `float64`, `string`, `[]interface`, `map[string]interface`),
normalizes them (`normalizeForComparison`), and compares with
`reflect.DeepEqual`.  Here the parsed dynamic value is embedded as the
inductive type `Json`:

* Go maps are unordered with unique keys; they are represented as
  association lists strictly sorted by key (the order `encoding/json`'s
  `Marshal` uses when serializing a map).  `reflect.DeepEqual` on maps is
  then plain structural equality of the sorted lists.
* Go numbers are `float64`; two numeric literals denote the same `float64`
  whenever they denote the same decimal value (for all inputs of interest),
  so numbers are embedded as exact decimals `m * 10 ^ e` with the mantissa
  normalized (not divisible by ten, and `0` is always `0 * 10 ^ 0`).
* `parse` models `json.Unmarshal` (a recursive-descent RFC 8259 reader,
  fueled for termination; the fuel `length + 1` is always sufficient);
  `renderChars` models `json.Marshal` of such a value: minimal whitespace,
  object keys in sorted order, strings escaped, numbers in a fixed minimal
  form.
-/

namespace Provider

/-- The parsed JSON value: the shape of the `interface` trees produced by
`json.Unmarshal` in the Go source.  Object entry lists are kept strictly
sorted by key (see file comment). -/
inductive Json where
  | null
  | bool (b : Bool)
  | num (m e : Int)
  | str (s : String)
  | arr (elems : List Json)
  | obj (entries : List (String × Json))

mutual

/-- Structural equality on `Json`, i.e. `reflect.DeepEqual` on the parsed
trees (object lists being sorted, map equality is list equality). -/
def Json.beq : Json → Json → Bool
  | .null, .null => true
  | .bool a, .bool b => a == b
  | .num m1 e1, .num m2 e2 => m1 == m2 && e1 == e2
  | .str a, .str b => a == b
  | .arr xs, .arr ys => Json.beqList xs ys
  | .obj xs, .obj ys => Json.beqObj xs ys
  | _, _ => false

def Json.beqList : List Json → List Json → Bool
  | x :: xs, y :: ys => Json.beq x y && Json.beqList xs ys
  | [], [] => true
  | _, _ => false

def Json.beqObj : List (String × Json) → List (String × Json) → Bool
  | (k1, v1) :: xs, (k2, v2) :: ys => k1 == k2 && Json.beq v1 v2 && Json.beqObj xs ys
  | [], [] => true
  | _, _ => false

end

mutual

theorem Json.beq_iff : ∀ a b : Json, Json.beq a b = true ↔ a = b
  | .null, .null => by simp [Json.beq]
  | .bool _, .bool _ => by simp [Json.beq]
  | .num _ _, .num _ _ => by simp [Json.beq]
  | .str _, .str _ => by simp [Json.beq]
  | .arr xs, .arr ys => by simp [Json.beq, Json.beqList_iff xs ys]
  | .obj xs, .obj ys => by simp [Json.beq, Json.beqObj_iff xs ys]
  | .null, .bool _ => by simp [Json.beq]
  | .null, .num _ _ => by simp [Json.beq]
  | .null, .str _ => by simp [Json.beq]
  | .null, .arr _ => by simp [Json.beq]
  | .null, .obj _ => by simp [Json.beq]
  | .bool _, .null => by simp [Json.beq]
  | .bool _, .num _ _ => by simp [Json.beq]
  | .bool _, .str _ => by simp [Json.beq]
  | .bool _, .arr _ => by simp [Json.beq]
  | .bool _, .obj _ => by simp [Json.beq]
  | .num _ _, .null => by simp [Json.beq]
  | .num _ _, .bool _ => by simp [Json.beq]
  | .num _ _, .str _ => by simp [Json.beq]
  | .num _ _, .arr _ => by simp [Json.beq]
  | .num _ _, .obj _ => by simp [Json.beq]
  | .str _, .null => by simp [Json.beq]
  | .str _, .bool _ => by simp [Json.beq]
  | .str _, .num _ _ => by simp [Json.beq]
  | .str _, .arr _ => by simp [Json.beq]
  | .str _, .obj _ => by simp [Json.beq]
  | .arr _, .null => by simp [Json.beq]
  | .arr _, .bool _ => by simp [Json.beq]
  | .arr _, .num _ _ => by simp [Json.beq]
  | .arr _, .str _ => by simp [Json.beq]
  | .arr _, .obj _ => by simp [Json.beq]
  | .obj _, .null => by simp [Json.beq]
  | .obj _, .bool _ => by simp [Json.beq]
  | .obj _, .num _ _ => by simp [Json.beq]
  | .obj _, .str _ => by simp [Json.beq]
  | .obj _, .arr _ => by simp [Json.beq]

theorem Json.beqList_iff : ∀ xs ys : List Json, Json.beqList xs ys = true ↔ xs = ys
  | x :: xs, y :: ys => by simp [Json.beqList, Json.beq_iff x y, Json.beqList_iff xs ys]
  | [], [] => by simp [Json.beqList]
  | [], _ :: _ => by simp [Json.beqList]
  | _ :: _, [] => by simp [Json.beqList]

theorem Json.beqObj_iff : ∀ xs ys : List (String × Json), Json.beqObj xs ys = true ↔ xs = ys
  | (_, v1) :: xs, (_, v2) :: ys => by
      simp [Json.beqObj, Json.beq_iff v1 v2, Json.beqObj_iff xs ys]
  | [], [] => by simp [Json.beqObj]
  | [], _ :: _ => by simp [Json.beqObj]
  | _ :: _, [] => by simp [Json.beqObj]

end

instance : DecidableEq Json := fun a b =>
  decidable_of_iff (Json.beq a b = true) (Json.beq_iff a b)

/-- The opening-brace character, written by code point to keep JSON brace
characters out of character literals. -/
def lbrace : Char := Char.ofNat 123

/-- The closing-brace character. -/
def rbrace : Char := Char.ofNat 125

/-- JSON insignificant whitespace, as accepted by the `encoding/json`
scanner: space, tab, line feed, carriage return. -/
def isWs (c : Char) : Bool :=
  c.toNat = 32 || c.toNat = 9 || c.toNat = 10 || c.toNat = 13

/-- ASCII decimal digit. -/
def isDigitCh (c : Char) : Bool := 48 ≤ c.toNat && c.toNat ≤ 57

/-- Value of an ASCII decimal digit. -/
def digitVal (c : Char) : Nat := c.toNat - 48

/-- The ASCII character of a decimal digit. -/
def digitChar (d : Nat) : Char := Char.ofNat (48 + d)

/-- Value of a hexadecimal digit (both cases), `none` for other characters. -/
def hexVal (c : Char) : Option Nat :=
  if 48 ≤ c.toNat ∧ c.toNat ≤ 57 then some (c.toNat - 48)
  else if 97 ≤ c.toNat ∧ c.toNat ≤ 102 then some (c.toNat - 87)
  else if 65 ≤ c.toNat ∧ c.toNat ≤ 70 then some (c.toNat - 55)
  else none

/-- Lower-case hexadecimal digit character (the `encoding/json` encoder
uses lower-case hex in escapes). -/
def hexDigitChar (d : Nat) : Char :=
  if d < 10 then Char.ofNat (48 + d) else Char.ofNat (87 + d)

/-- Drop leading JSON whitespace. -/
def skipWs : List Char → List Char
  | [] => []
  | c :: cs => if isWs c then skipWs cs else c :: cs

/-- Consume an expected literal suffix (used for `null`, `true`, `false`). -/
def expectLit : List Char → List Char → Option (List Char)
  | [], cs => some cs
  | e :: es, c :: cs => if c = e then expectLit es cs else none
  | _ :: _, [] => none

/-- Decode a single-character escape (the escapes `encoding/json` accepts
besides the hexadecimal one). -/
def escDecode (c : Char) : Option Char :=
  if c = '"' then some '"'
  else if c = '\\' then some '\\'
  else if c = '/' then some '/'
  else if c = 'b' then some (Char.ofNat 8)
  else if c = 'f' then some (Char.ofNat 12)
  else if c = 'n' then some (Char.ofNat 10)
  else if c = 'r' then some (Char.ofNat 13)
  else if c = 't' then some (Char.ofNat 9)
  else none

/-- Read a JSON string body after its opening quote, returning the decoded
characters and the input following the closing quote.  Raw control
characters are rejected and the escapes of RFC 8259 are decoded, as in the
`encoding/json` scanner (lone `\u` surrogate halves are rejected here,
where Go would substitute a replacement character). -/
def parseStringBody : List Char → Option (List Char × List Char)
  | [] => none
  | c :: rest =>
    if c = '"' then some ([], rest)
    else if c = '\\' then
      match rest with
      | [] => none
      | e :: rest2 =>
        if e = 'u' then
          match rest2 with
          | h1 :: h2 :: h3 :: h4 :: rest3 =>
            (match hexVal h1, hexVal h2, hexVal h3, hexVal h4 with
            | some a, some b, some cc, some d =>
              let n := ((a * 16 + b) * 16 + cc) * 16 + d
              if 55296 ≤ n ∧ n ≤ 57343 then none
              else
                match parseStringBody rest3 with
                | some (s, r) => some (Char.ofNat n :: s, r)
                | none => none
            | _, _, _, _ => none)
          | _ => none
        else
          match escDecode e with
          | some d =>
            (match parseStringBody rest2 with
            | some (s, r) => some (d :: s, r)
            | none => none)
          | none => none
    else if c.toNat < 32 then none
    else
      match parseStringBody rest with
      | some (s, r) => some (c :: s, r)
      | none => none

/-- Accumulate a run of decimal digits (most significant first). -/
def parseDigitsAux : List Char → Nat → Nat × List Char
  | [], acc => (acc, [])
  | c :: cs, acc =>
    if isDigitCh c then parseDigitsAux cs (acc * 10 + digitVal c) else (acc, c :: cs)

/-- Accumulate fraction digits, also counting them. -/
def parseFracAux : List Char → Nat → Nat → Nat × Nat × List Char
  | [], acc, cnt => (acc, cnt, [])
  | c :: cs, acc, cnt =>
    if isDigitCh c then parseFracAux cs (acc * 10 + digitVal c) (cnt + 1)
    else (acc, cnt, c :: cs)

/-- Optional fraction part `.digits`; yields its value, its digit count and
the rest.  A bare dot without a digit is a syntax error. -/
def parseFracPart : List Char → Option (Nat × Nat × List Char)
  | [] => some (0, 0, [])
  | c :: r =>
    if c = '.' then
      match r with
      | d :: _ => if isDigitCh d then some (parseFracAux r 0 0) else none
      | [] => none
    else some (0, 0, c :: r)

/-- Optional exponent part `e[+-]digits`. -/
def parseExpPart : List Char → Option (Int × List Char)
  | [] => some (0, [])
  | c :: r =>
    if c = 'e' ∨ c = 'E' then
      match r with
      | c2 :: r2 =>
        if c2 = '+' then
          match r2 with
          | d :: _ =>
            if isDigitCh d then
              some (((parseDigitsAux r2 0).1 : Int), (parseDigitsAux r2 0).2)
            else none
          | [] => none
        else if c2 = '-' then
          match r2 with
          | d :: _ =>
            if isDigitCh d then
              some (-((parseDigitsAux r2 0).1 : Int), (parseDigitsAux r2 0).2)
            else none
          | [] => none
        else if isDigitCh c2 then
          some (((parseDigitsAux r 0).1 : Int), (parseDigitsAux r 0).2)
        else none
      | [] => none
    else some (0, c :: r)

/-- Strip factors of ten from the mantissa into the exponent (fueled; the
fuel `n` always suffices since a number has fewer than `n` such factors). -/
def stripZerosF : Nat → Nat → Int → Nat × Int
  | 0, n, e => (n, e)
  | f + 1, n, e =>
    if n ≠ 0 ∧ n % 10 = 0 then stripZerosF f (n / 10) (e + 1) else (n, e)

/-- Normalize a decimal mantissa/exponent pair. -/
def stripZeros (n : Nat) (e : Int) : Nat × Int := stripZerosF n n e

/-- Assembly of the parsed decimal: normalize the raw mantissa/exponent
pair and apply the sign (this is where distinct literals of one `float64`
value collapse to one representation). -/
def mkNum (neg : Bool) (m0 : Nat) (e0 : Int) : Json :=
  .num (if neg then -((stripZeros m0 e0).1 : Int) else ((stripZeros m0 e0).1 : Int))
    (if (stripZeros m0 e0).1 = 0 then 0 else (stripZeros m0 e0).2)

/-- The unsigned part of the number grammar: integer part (with the
leading-zero restriction), optional fraction, optional exponent, then
assembly of the normalized decimal (`neg` records a consumed minus
sign). -/
def parseNumBody (neg : Bool) (cs1 : List Char) : Option (Json × List Char) :=
  match cs1 with
  | [] => none
  | c :: r =>
    if isDigitCh c then
      let ipRes := if c = '0' then (0, r) else parseDigitsAux (c :: r) 0
      match parseFracPart ipRes.2 with
      | some (fv, fc, cs3) =>
        match parseExpPart cs3 with
        | some (ex, cs4) => some (mkNum neg (ipRes.1 * 10 ^ fc + fv) (ex - (fc : Int)), cs4)
        | none => none
      | none => none
    else none

/-- Read a JSON number (RFC 8259 grammar as enforced by `encoding/json`)
into its exact decimal value, with the mantissa normalized the way a
`float64` conflates distinct literals of one value. -/
def parseNumber (cs : List Char) : Option (Json × List Char) :=
  match cs with
  | [] => none
  | c0 :: r0 =>
    if c0 = '-' then parseNumBody true r0 else parseNumBody false (c0 :: r0)

/-- Lexicographic comparison of character lists by code point; on UTF-8
encoded text this is exactly the byte-wise order Go's `sort.Strings`
uses when `json.Marshal` sorts map keys. -/
def charListLt : List Char → List Char → Bool
  | a :: as, b :: bs =>
    if a.toNat < b.toNat then true
    else if b.toNat < a.toNat then false
    else charListLt as bs
  | [], _ :: _ => true
  | _, _ => false

/-- Byte-wise order on strings. -/
def strLt (a b : String) : Bool := charListLt a.data b.data

/-- Insert a key/value pair into a sorted association list, keeping an
already-present binding for the key.  This embeds Go's left-to-right map
population where a later duplicate key overwrites an earlier one: the
member lists below are built right-to-left, so keeping the existing
binding lets the later occurrence win. -/
def insertKV (k : String) (v : Json) : List (String × Json) → List (String × Json)
  | [] => [(k, v)]
  | (k', v') :: rest =>
    if strLt k k' then (k, v) :: (k', v') :: rest
    else if k = k' then (k', v') :: rest
    else (k', v') :: insertKV k v rest

mutual

/-- Read one JSON value (fueled recursive descent embedding the
`encoding/json` reader feeding an untyped `interface` tree). -/
def parseValue : Nat → List Char → Option (Json × List Char)
  | 0, _ => none
  | fuel + 1, cs =>
    match skipWs cs with
    | [] => none
    | c :: rest =>
      if c = 'n' then (expectLit ['u', 'l', 'l'] rest).map (fun r => (.null, r))
      else if c = 't' then (expectLit ['r', 'u', 'e'] rest).map (fun r => (.bool true, r))
      else if c = 'f' then (expectLit ['a', 'l', 's', 'e'] rest).map (fun r => (.bool false, r))
      else if c = '"' then
        (parseStringBody rest).map (fun sr => (.str (String.mk sr.1), sr.2))
      else if c = '[' then
        match skipWs rest with
        | ']' :: r2 => some (.arr [], r2)
        | cs2 => (parseElems fuel cs2).map (fun xr => (.arr xr.1, xr.2))
      else if c = lbrace then
        match skipWs rest with
        | [] => none
        | c2 :: r2 =>
          if c2 = rbrace then some (.obj [], r2)
          else (parseMembers fuel (c2 :: r2)).map (fun mr => (.obj mr.1, mr.2))
      else parseNumber (c :: rest)

/-- Read the elements of a non-empty array, through the closing bracket. -/
def parseElems : Nat → List Char → Option (List Json × List Char)
  | 0, _ => none
  | fuel + 1, cs =>
    match parseValue fuel cs with
    | none => none
    | some (v, rest) =>
      match skipWs rest with
      | ',' :: r2 =>
        (match parseElems fuel r2 with
        | some (vs, r3) => some (v :: vs, r3)
        | none => none)
      | ']' :: r2 => some ([v], r2)
      | _ => none

/-- Read the members of a non-empty object, through the closing brace,
assembling the unordered Go map as a sorted association list. -/
def parseMembers : Nat → List Char → Option (List (String × Json) × List Char)
  | 0, _ => none
  | fuel + 1, cs =>
    match skipWs cs with
    | [] => none
    | c :: r1 =>
      if c = '"' then
        match parseStringBody r1 with
        | none => none
        | some (k, r2) =>
          match skipWs r2 with
          | ':' :: r3 =>
            (match parseValue fuel r3 with
            | none => none
            | some (v, r4) =>
              match skipWs r4 with
              | [] => none
              | c2 :: r5 =>
                if c2 = ',' then
                  match parseMembers fuel r5 with
                  | some (kvs, r6) => some (insertKV (String.mk k) v kvs, r6)
                  | none => none
                else if c2 = rbrace then some ([(String.mk k, v)], r5)
                else none)
          | _ => none
      else none

end

/-- `json.Unmarshal` into an untyped tree: one value, then only trailing
whitespace.  The fuel `length + 1` is sufficient for every input, since
each recursive call of the reader is preceded by the consumption of at
least one character. -/
def parse (s : String) : Option Json :=
  match parseValue (s.length + 1) s.data with
  | some (v, rest) => if skipWs rest = [] then some v else none
  | none => none

/-- Little-endian decimal digits (fueled; fuel `n` suffices). -/
def natDigitsRevF : Nat → Nat → List Nat
  | 0, _ => []
  | f + 1, n => if n = 0 then [] else n % 10 :: natDigitsRevF f (n / 10)

/-- Little-endian decimal digits of a natural number. -/
def natDigitsRev (n : Nat) : List Nat := natDigitsRevF n n

/-- Decimal rendering of a natural number. -/
def renderNat (n : Nat) : List Char :=
  if n = 0 then [digitChar 0] else ((natDigitsRev n).reverse).map digitChar

/-- Decimal rendering of an integer. -/
def renderInt (i : Int) : List Char :=
  if i < 0 then '-' :: renderNat i.natAbs else renderNat i.natAbs

/-- Fixed rendering of a normalized decimal: plain integer digits when the
exponent is non-negative, scientific notation otherwise (a fixed minimal
form that re-reads to the same value, standing in for Go's shortest
`float64` formatting). -/
def renderNum (m e : Int) : List Char :=
  if 0 ≤ e then renderInt (m * 10 ^ e.toNat)
  else renderInt m ++ 'e' :: renderInt e

/-- Escape one character of a string the way the `encoding/json` encoder
guarantees: quote and backslash escaped, control characters in hexadecimal
form, everything else literal. -/
def escChar (c : Char) : List Char :=
  if c = '"' then ['\\', '"']
  else if c = '\\' then ['\\', '\\']
  else if c.toNat < 32 then
    '\\' :: 'u' :: '0' :: '0' :: hexDigitChar (c.toNat / 16)
      :: [hexDigitChar (c.toNat % 16)]
  else [c]

/-- Escape a whole character list. -/
def escapeChars : List Char → List Char
  | [] => []
  | c :: cs => escChar c ++ escapeChars cs

/-- Rendering of a JSON string, quotes included. -/
def renderString (s : String) : List Char := '"' :: escapeChars s.data ++ ['"']

mutual

/-- `json.Marshal` of an untyped tree: minimal whitespace, object keys in
sorted order (our object lists are kept sorted, so they are emitted in
list order). -/
def renderChars : Json → List Char
  | .null => "null".data
  | .bool true => "true".data
  | .bool false => "false".data
  | .num m e => renderNum m e
  | .str s => renderString s
  | .arr xs => '[' :: renderElems xs
  | .obj kvs => lbrace :: renderMembers kvs

/-- Elements of an array, through the closing bracket. -/
def renderElems : List Json → List Char
  | [] => [']']
  | [x] => renderChars x ++ [']']
  | x :: y :: xs => renderChars x ++ ',' :: renderElems (y :: xs)

/-- Members of an object, through the closing brace. -/
def renderMembers : List (String × Json) → List Char
  | [] => [rbrace]
  | [(k, v)] => renderString k ++ ':' :: renderChars v ++ [rbrace]
  | (k, v) :: kv :: kvs => renderString k ++ ':' :: renderChars v ++ ',' :: renderMembers (kv :: kvs)

end

/-- The serialized text of a value. -/
def render (v : Json) : String := String.mk (renderChars v)

/-- The optional-field set of `isOptionalNodeField` in the Go source. -/
def isOptionalNodeField (key : String) : Bool :=
  key == "executeOnce" || key == "alwaysOutputData" || key == "retryOnFail" ||
  key == "onError" || key == "continueOnFail" || key == "disabled"

mutual

/-- `normalizeForComparison` of the Go source.  `none` is Go's `nil`
result (for a null, an empty map or an empty slice after filtering).
Inside object entries a kept key whose value normalized to `nil` is stored
as `.null`: normalized trees never contain a parsed null (nulls are
dropped), so `.null` faithfully stands for the stored `nil` interface. -/
def normalizeForComparison : Json → Option Json
  | .null => none
  | .bool b => some (.bool b)
  | .num m e => some (.num m e)
  | .str s => some (.str s)
  | .obj kvs =>
    let r := normEntries kvs
    if r.isEmpty then none else some (.obj r)
  | .arr xs =>
    let r := normElems xs
    if r.isEmpty then none else some (.arr r)

/-- The map loop of `normalizeForComparison`: skip null values, skip
optional keys, otherwise keep the key with the normalized value (even when
that value normalized to `nil`). -/
def normEntries : List (String × Json) → List (String × Json)
  | [] => []
  | (k, v) :: tl =>
    if v = .null then normEntries tl
    else if isOptionalNodeField k then normEntries tl
    else (k, (normalizeForComparison v).getD .null) :: normEntries tl

/-- The slice loop of `normalizeForComparison`: normalize the elements,
dropping those that normalize to `nil`. -/
def normElems : List Json → List Json
  | [] => []
  | x :: rest =>
    match normalizeForComparison x with
    | none => normElems rest
    | some y => y :: normElems rest

end

/-- `jsonSemanticEqual` of the Go source: parse both texts (failure on
either side yields `false`), normalize both trees, compare with
`reflect.DeepEqual` (structural equality here, the object lists being
sorted). -/
def jsonSemanticEqual (a b : String) : Bool :=
  match parse a, parse b with
  | some objA, some objB =>
    decide (normalizeForComparison objA = normalizeForComparison objB)
  | _, _ => false

/-- `NormalizeJSON` of the Go source: parse, then re-marshal with the
consistent formatting; a parse failure is returned to the caller. -/
def NormalizeJSON (input : String) : Option String := (parse input).map render

/-- A normalized mantissa/exponent pair, as `parseNumber` produces: zero is
`0 * 10 ^ 0`, and a non-zero mantissa carries no factor of ten. -/
def numNormal (m e : Int) : Bool :=
  if m = 0 then e == 0 else m.natAbs % 10 != 0

/-- The key `k` is strictly below the first key of the list (trivially
true of the empty list). -/
def ltHeadKey (k : String) : List (String × Json) → Bool
  | [] => true
  | (k2, _) :: _ => strLt k k2

/-- Object entry lists hold their keys in strictly increasing byte-wise
order (the invariant of the map embedding). -/
def keysSorted : List (String × Json) → Bool
  | [] => true
  | (k, _) :: rest => ltHeadKey k rest && keysSorted rest

mutual

/-- Well-formedness of an embedded tree: exactly the shapes `parse` can
produce (sorted object keys, normalized numbers). -/
def Json.wf : Json → Bool
  | .null => true
  | .bool _ => true
  | .num m e => numNormal m e
  | .str _ => true
  | .arr xs => Json.wfList xs
  | .obj kvs => keysSorted kvs && Json.wfObj kvs

def Json.wfList : List Json → Bool
  | [] => true
  | x :: xs => x.wf && Json.wfList xs

def Json.wfObj : List (String × Json) → Bool
  | [] => true
  | kv :: kvs => kv.2.wf && Json.wfObj kvs

end

mutual

/-- An upper bound on the reader fuel consumed when re-reading a value
(each recursive call of the reader ticks the fuel once). -/
def cost : Json → Nat
  | .arr xs => 1 + costElems xs
  | .obj kvs => 1 + costMembers kvs
  | _ => 1

def costElems : List Json → Nat
  | [] => 1
  | x :: xs => 1 + max (cost x) (costElems xs)

def costMembers : List (String × Json) → Nat
  | [] => 1
  | kv :: kvs => 1 + max (cost kv.2) (costMembers kvs)

end

/-- A scalar value: boolean, number or string. -/
def isScalar : Json → Bool
  | .bool _ => true
  | .num _ _ => true
  | .str _ => true
  | _ => false

/-- The text following a rendered value never continues a number: it is
empty or starts with a list/object delimiter. -/
def numDelim : List Char → Prop
  | [] => True
  | c :: _ => c ≠ '.' ∧ c ≠ 'E' ∧ c ≠ 'e' ∧ isDigitCh c = false

/-- The text does not start with a decimal digit. -/
def noDigitHead : List Char → Prop
  | [] => True
  | c :: _ => isDigitCh c = false

/-- Introduction form of `numDelim` for a cons cell. -/
theorem numDelim_of (c : Char) (rest : List Char)
    (h : c ≠ '.' ∧ c ≠ 'E' ∧ c ≠ 'e' ∧ isDigitCh c = false) : numDelim (c :: rest) := h

/-- The first character of a rendered value: never whitespace, never a
closing bracket. -/
def goodHead : List Char → Prop
  | [] => False
  | c :: _ => isWs c = false ∧ c ≠ ']'

/-- One-step removal, at an arbitrary nesting depth, of a single object
entry whose key is in the optional set or whose value is the literal
`null` — the transformation the null/optional-field invariance claim
quantifies over. -/
inductive Strip : Json → Json → Prop where
  | objHere (pre post : List (String × Json)) (k : String) (v : Json)
      (h : isOptionalNodeField k = true ∨ v = .null) :
      Strip (.obj (pre ++ (k, v) :: post)) (.obj (pre ++ post))
  | objDeep (pre post : List (String × Json)) (k : String) (v v' : Json)
      (h : Strip v v') :
      Strip (.obj (pre ++ (k, v) :: post)) (.obj (pre ++ (k, v') :: post))
  | arrDeep (pre post : List Json) (v v' : Json) (h : Strip v v') :
      Strip (.arr (pre ++ v :: post)) (.arr (pre ++ v' :: post))

/-! Lemmas about the normalizer. -/

theorem normEntries_append (l1 l2 : List (String × Json)) :
    normEntries (l1 ++ l2) = normEntries l1 ++ normEntries l2 := by
  induction l1 with
  | nil => rfl
  | cons kv rest ih =>
    obtain ⟨k, v⟩ := kv
    by_cases h1 : v = Json.null
    · simp [normEntries, h1, ih]
    · by_cases h2 : isOptionalNodeField k <;> simp [normEntries, h1, h2, ih]

theorem normElems_append (l1 l2 : List Json) :
    normElems (l1 ++ l2) = normElems l1 ++ normElems l2 := by
  induction l1 with
  | nil => rfl
  | cons x rest ih => cases h : normalizeForComparison x <;> simp [normElems, h, ih]

theorem normEntries_cons_optional (k : String) (v : Json) (kvs : List (String × Json))
    (hk : isOptionalNodeField k = true) :
    normEntries ((k, v) :: kvs) = normEntries kvs := by
  by_cases hv : v = Json.null <;> simp [normEntries, hk, hv]

theorem strip_not_null (v v' : Json) (h : Strip v v') : v ≠ .null ∧ v' ≠ .null := by
  cases h <;> exact ⟨by simp, by simp⟩

theorem strip_normalize (v v' : Json) (h : Strip v v') :
    normalizeForComparison v' = normalizeForComparison v := by
  induction h with
  | objHere pre post k v h =>
    have hcons : normEntries ((k, v) :: post) = normEntries post := by
      rcases h with h | h
      · exact normEntries_cons_optional k v post h
      · simp [normEntries, h]
    simp [normalizeForComparison, normEntries_append, hcons]
  | objDeep pre post k v v' h ih =>
    have hv := (strip_not_null v v' h).1
    have hv' := (strip_not_null v v' h).2
    have hcons : normEntries ((k, v') :: post) = normEntries ((k, v) :: post) := by
      by_cases hk : isOptionalNodeField k
      · simp [normEntries_cons_optional _ _ _ hk]
      · simp [normEntries, hv, hv', hk, ih]
    simp [normalizeForComparison, normEntries_append, hcons]
  | arrDeep pre post v v' h ih =>
    have hcons : normElems (v' :: post) = normElems (v :: post) := by
      simp [normElems, ih]
    simp [normalizeForComparison, normElems_append, hcons]

theorem normalize_scalar (v : Json) (h : isScalar v = true) :
    normalizeForComparison v = some v := by
  cases v <;> first | rfl | simp [isScalar] at h

theorem normElems_scalars (xs : List Json) (h : ∀ x ∈ xs, isScalar x = true) :
    normElems xs = xs := by
  induction xs with
  | nil => rfl
  | cons x rest ih =>
    have hx := normalize_scalar x (h x (by simp))
    simp [normElems, hx, ih (fun y hy => h y (by simp [hy]))]

/-! The claims that do not need the serializer round trip. -/

/-- Claim C1 (code bug): the specification and the repository's own test
suite (`TestJsonSemanticEqualWithParameterOrder`) require arrays whose
elements all carry a scalar `"key"` field to compare as order-independent
multisets, but `jsonSemanticEqual` compares every array positionally with
`reflect.DeepEqual` after normalization: on the permuted keyed array pair
it returns `false` where the claim requires `true`. -/
theorem keyedArray_permutation_unequal_eval :
    jsonSemanticEqual "[\x7b\"key\":\"a\"\x7d,\x7b\"key\":\"b\"\x7d]"
      "[\x7b\"key\":\"b\"\x7d,\x7b\"key\":\"a\"\x7d]" = false := by decide

/-- Claim C2: removing, at any nesting depth, one object entry whose key
is in the optional-field set or whose value is the literal `null` (the
`Strip` relation) leaves the normalized tree unchanged, hence leaves
`semanticEqual` against any third text unchanged. -/
theorem semanticEqual_strip_invariant (a a' b : String) (va va' : Json)
    (ha : parse a = some va) (ha' : parse a' = some va') (hs : Strip va va') :
    jsonSemanticEqual a' b = jsonSemanticEqual a b := by
  unfold jsonSemanticEqual
  rw [ha, ha']
  cases hb : parse b <;> simp [strip_normalize va va' hs]

/-- Witness for claim C2, including the two concrete instances named in
the claim. -/
theorem semanticEqual_strip_invariant_witness :
    jsonSemanticEqual "\x7b\"k\":\"v\"\x7d" "\x7b\"k\":\"v\"\x7d"
        = jsonSemanticEqual "\x7b\"k\":\"v\",\"main\":null\x7d" "\x7b\"k\":\"v\"\x7d" ∧
      jsonSemanticEqual "\x7b\"k\":\"v\",\"main\":null\x7d" "\x7b\"k\":\"v\"\x7d" = true ∧
      jsonSemanticEqual "\x7b\"id\":\"n1\",\"executeOnce\":false\x7d" "\x7b\"id\":\"n1\"\x7d" = true := by
  refine ⟨?_, by decide, by decide⟩
  exact semanticEqual_strip_invariant _ _ _
    (.obj [("k", .str "v"), ("main", .null)]) (.obj [("k", .str "v")])
    (by decide) (by decide)
    (Strip.objHere [("k", .str "v")] [] "main" .null (Or.inr rfl))

/-- Claim C3: a parse failure on either side makes `jsonSemanticEqual`
return `false`; no error escapes and nothing unparsable is ever equal to
anything. -/
theorem semanticEqual_parse_failure_false (a b : String)
    (h : parse a = none ∨ parse b = none) : jsonSemanticEqual a b = false := by
  unfold jsonSemanticEqual
  rcases h with h | h
  · rw [h]
  · rw [h]; cases parse a <;> rfl

/-- Witness for claim C3: an unparsable text, compared against an
identical copy of itself, still yields `false`. -/
theorem semanticEqual_parse_failure_false_witness :
    parse "\x7bbad\x7d" = none ∧
      jsonSemanticEqual "\x7bbad\x7d" "\x7bbad\x7d" = false :=
  ⟨by decide, semanticEqual_parse_failure_false _ _ (Or.inl (by decide))⟩

/-- Claim C4 (counterexample): `'\x7b"x":\x7b\x7d\x7d'` is composed
entirely of containers emptied by stripping, yet the code does not
normalize it to Absent — the inner emptied object is kept as an entry
value — so it is not semantically equal to `'null'`, where the claim
requires `true`. -/
theorem nested_empty_object_not_absent :
    jsonSemanticEqual "\x7b\"x\":\x7b\x7d\x7d" "null" = false := by decide

/-- Claim C4 (amended): any two texts whose parsed trees both normalize to
`nil` (Absent) at the root compare semantically equal — this covers
`'null'`, `'\x7b\x7d'`, `'[]'`, objects all of whose entries are
null-valued or optional-keyed, and arrays of such values — but not an
object retaining an entry whose value is an emptied non-null container. -/
theorem semanticEqual_of_absent_roots (a b : String) (va vb : Json)
    (ha : parse a = some va) (hb : parse b = some vb)
    (hna : normalizeForComparison va = none)
    (hnb : normalizeForComparison vb = none) :
    jsonSemanticEqual a b = true := by
  unfold jsonSemanticEqual
  rw [ha, hb]
  simp [hna, hnb]

/-- Witness for the amended claim C4. -/
theorem semanticEqual_of_absent_roots_witness :
    jsonSemanticEqual "\x7b\"a\":null,\"executeOnce\":false\x7d" "[]" = true ∧
      jsonSemanticEqual "null" "\x7b\x7d" = true := by
  have hp1 : parse "\x7b\"a\":null,\"executeOnce\":false\x7d"
      = some (.obj [("a", .null), ("executeOnce", .bool false)]) := by decide
  have hp2 : parse "[]" = some (.arr []) := by decide
  have hp3 : parse "null" = some .null := by decide
  have hp4 : parse "\x7b\x7d" = some (.obj []) := by decide
  constructor
  · exact semanticEqual_of_absent_roots _ _ _ _ hp1 hp2 (by decide) (by decide)
  · exact semanticEqual_of_absent_roots _ _ _ _ hp3 hp4 (by decide) (by decide)

/-- Claim C7: two parsed arrays of plain scalars compare exactly
position-by-position — semantically equal iff the element lists are
identical (same length, same values, same order). -/
theorem nonKeyed_scalar_arrays_positional (a b : String) (xs ys : List Json)
    (ha : parse a = some (.arr xs)) (hb : parse b = some (.arr ys))
    (hxs : ∀ x ∈ xs, isScalar x = true) (hys : ∀ y ∈ ys, isScalar y = true) :
    (jsonSemanticEqual a b = true ↔ xs = ys) := by
  unfold jsonSemanticEqual
  rw [ha, hb]
  simp only [normalizeForComparison, normElems_scalars xs hxs, normElems_scalars ys hys]
  cases xs <;> cases ys <;> simp

/-- Witness for claim C7: the claim's concrete permuted example. -/
theorem nonKeyed_scalar_arrays_positional_witness :
    jsonSemanticEqual "[1,2,3]" "[3,2,1]" = false := by
  have hpa : parse "[1,2,3]" = some (.arr [.num 1 0, .num 2 0, .num 3 0]) := by decide
  have hpb : parse "[3,2,1]" = some (.arr [.num 3 0, .num 2 0, .num 1 0]) := by decide
  have h := nonKeyed_scalar_arrays_positional "[1,2,3]" "[3,2,1]" _ _ hpa hpb
    (by decide) (by decide)
  rw [Bool.eq_false_iff]
  intro hT
  exact absurd (h.mp hT) (by decide)

/-- Claim C8: `jsonSemanticEqual` is symmetric over all inputs, parsable
or not. -/
theorem jsonSemanticEqual_symm (a b : String) :
    jsonSemanticEqual a b = jsonSemanticEqual b a := by
  unfold jsonSemanticEqual
  cases parse a <;> cases parse b
  · rfl
  · rfl
  · rfl
  · exact decide_eq_decide.mpr eq_comm

/-- Claim C10: an object entry whose key is in the optional set is dropped
by normalization whatever its value is, so adding such an entry anywhere in
an object leaves it semantically equal to the object without it. -/
theorem optional_key_dropped_any_value (a b : String) (k : String) (v : Json)
    (pre post : List (String × Json)) (hk : isOptionalNodeField k = true)
    (ha : parse a = some (.obj (pre ++ (k, v) :: post)))
    (hb : parse b = some (.obj (pre ++ post))) :
    jsonSemanticEqual a b = true := by
  unfold jsonSemanticEqual
  rw [ha, hb]
  simp [normalizeForComparison, normEntries_append,
    normEntries_cons_optional k v post hk]

/-- Witness for claim C10: `retryOnFail` mapped to `true` (not its
documented default `false`), added after the non-optional key `id`, is
still dropped. -/
theorem optional_key_dropped_any_value_witness :
    jsonSemanticEqual "\x7b\"id\":\"n1\",\"retryOnFail\":true\x7d"
      "\x7b\"id\":\"n1\"\x7d" = true :=
  optional_key_dropped_any_value _ _ "retryOnFail" (.bool true)
    [("id", .str "n1")] [] (by decide) (by decide) (by decide)

/-! Order lemmas for the byte-wise key order. -/

theorem char_eq_of_toNat_eq {a b : Char} (h : a.toNat = b.toNat) : a = b := by
  have := congrArg Char.ofNat h
  rwa [Char.ofNat_toNat, Char.ofNat_toNat] at this

theorem charListLt_antisymm : ∀ l1 l2 : List Char,
    charListLt l1 l2 = false → charListLt l2 l1 = false → l1 = l2
  | [], [], _, _ => by rfl
  | [], _ :: _, h1, _ => by simp [charListLt] at h1
  | _ :: _, [], _, h2 => by simp [charListLt] at h2
  | a :: as, b :: bs, h1, h2 => by
    rw [charListLt] at h1 h2
    by_cases hab : a.toNat < b.toNat
    · simp [hab] at h1
    · by_cases hba : b.toNat < a.toNat
      · simp [hba] at h2
      · have hEq : a = b := char_eq_of_toNat_eq (by omega)
        simp [hab, hba] at h1 h2
        rw [hEq, charListLt_antisymm as bs h1 h2]

theorem strLt_antisymm (a b : String) (h1 : strLt a b = false)
    (h2 : strLt b a = false) : a = b := by
  cases a with | mk l1 =>
  cases b with | mk l2 =>
  have hl : l1 = l2 :=
    charListLt_antisymm l1 l2 (by simpa [strLt] using h1) (by simpa [strLt] using h2)
  rw [hl]

/-! Lemmas about sorted insertion. -/

theorem insertKV_cons_of_lt (k k2 : String) (v v2 : Json) (kvs : List (String × Json))
    (h : strLt k k2 = true) :
    insertKV k v ((k2, v2) :: kvs) = (k, v) :: (k2, v2) :: kvs := by
  simp [insertKV, h]

theorem ltHeadKey_insertKV (k0 k : String) (v : Json) (l : List (String × Json))
    (h1 : ltHeadKey k0 l = true) (h2 : strLt k0 k = true) :
    ltHeadKey k0 (insertKV k v l) = true := by
  cases l with
  | nil => simpa [insertKV, ltHeadKey]
  | cons kv rest =>
    obtain ⟨k2, v2⟩ := kv
    by_cases hlt : strLt k k2 = true
    · simpa [insertKV, hlt, ltHeadKey]
    · by_cases heq : k = k2
      · subst heq
        simpa [insertKV, hlt, ltHeadKey] using h1
      · simpa [insertKV, hlt, heq, ltHeadKey] using h1

theorem insertKV_sorted (k : String) (v : Json) (l : List (String × Json))
    (h : keysSorted l = true) : keysSorted (insertKV k v l) = true := by
  induction l with
  | nil => simp [insertKV, keysSorted, ltHeadKey]
  | cons kv rest ih =>
    obtain ⟨k1, v1⟩ := kv
    rw [keysSorted] at h
    simp only [Bool.and_eq_true] at h
    by_cases hlt : strLt k k1 = true
    · rw [insertKV_cons_of_lt k k1 v v1 rest hlt]
      rw [keysSorted, ltHeadKey, hlt, keysSorted]
      simp [h.1, h.2]
    · by_cases heq : k = k1
      · subst heq
        simp [insertKV, hlt, keysSorted, h.1, h.2]
      · have hgt : strLt k1 k = true := by
          by_contra hc
          exact heq (strLt_antisymm k k1 (by simpa using hlt) (by simpa using hc))
        have hstep : insertKV k v ((k1, v1) :: rest) = (k1, v1) :: insertKV k v rest := by
          simp [insertKV, hlt, heq]
        rw [hstep, keysSorted]
        simp [ltHeadKey_insertKV k1 k v rest h.1 hgt, ih h.2]

theorem insertKV_wfObj (k : String) (v : Json) (l : List (String × Json))
    (hv : v.wf = true) (h : Json.wfObj l = true) :
    Json.wfObj (insertKV k v l) = true := by
  induction l with
  | nil => simpa [insertKV, Json.wfObj]
  | cons kv rest ih =>
    obtain ⟨k1, v1⟩ := kv
    rw [Json.wfObj] at h
    simp only [Bool.and_eq_true] at h
    by_cases hlt : strLt k k1 = true
    · simp [insertKV, hlt, Json.wfObj, hv, h.1, h.2]
    · by_cases heq : k = k1
      · subst heq
        simp [insertKV, hlt, Json.wfObj, h.1, h.2]
      · simp [insertKV, hlt, heq, Json.wfObj, h.1, ih h.2]

/-! Whitespace and string-body lemmas. -/

theorem skipWs_not_ws (c : Char) (cs : List Char) (h : isWs c = false) :
    skipWs (c :: cs) = c :: cs := by
  simp [skipWs, h]

theorem hexVal_hexDigitChar (d : Nat) (h : d < 16) :
    hexVal (hexDigitChar d) = some d := by
  interval_cases d <;> decide

theorem psb_quote (rest : List Char) : parseStringBody ('"' :: rest) = some ([], rest) := by
  rw [parseStringBody.eq_def]
  simp

theorem psb_escaped (e d : Char) (rest : List Char) (he : e ≠ 'u')
    (hd : escDecode e = some d) :
    parseStringBody ('\\' :: e :: rest) =
      (match parseStringBody rest with
      | some (s, r) => some (d :: s, r)
      | none => none) := by
  rw [parseStringBody.eq_def]
  simp [he, hd]

theorem psb_unicode (h1 h2 h3 h4 : Char) (a b cc d : Nat) (rest : List Char)
    (hv1 : hexVal h1 = some a) (hv2 : hexVal h2 = some b)
    (hv3 : hexVal h3 = some cc) (hv4 : hexVal h4 = some d)
    (hsur : ¬(55296 ≤ ((a * 16 + b) * 16 + cc) * 16 + d ∧
      ((a * 16 + b) * 16 + cc) * 16 + d ≤ 57343)) :
    parseStringBody ('\\' :: 'u' :: h1 :: h2 :: h3 :: h4 :: rest) =
      (match parseStringBody rest with
      | some (s, r) => some (Char.ofNat (((a * 16 + b) * 16 + cc) * 16 + d) :: s, r)
      | none => none) := by
  rw [parseStringBody.eq_def]
  simp [hv1, hv2, hv3, hv4, hsur]

theorem psb_plain (c : Char) (rest : List Char) (h1 : c ≠ '"') (h2 : c ≠ '\\')
    (h3 : ¬ c.toNat < 32) :
    parseStringBody (c :: rest) =
      (match parseStringBody rest with
      | some (s, r) => some (c :: s, r)
      | none => none) := by
  rw [parseStringBody.eq_def]
  simp [h1, h2, h3]

theorem parseStringBody_escape (l rest : List Char) :
    parseStringBody (escapeChars l ++ '"' :: rest) = some (l, rest) := by
  induction l with
  | nil => simpa [escapeChars] using psb_quote rest
  | cons c cs ih =>
    by_cases h1 : c = '"'
    · subst h1
      rw [show escapeChars ('"' :: cs) ++ '"' :: rest
          = '\\' :: '"' :: (escapeChars cs ++ '"' :: rest) from by simp [escapeChars, escChar]]
      rw [psb_escaped '"' '"' _ (by decide) (by decide), ih]
    · by_cases h2 : c = '\\'
      · subst h2
        rw [show escapeChars ('\\' :: cs) ++ '"' :: rest
            = '\\' :: '\\' :: (escapeChars cs ++ '"' :: rest) from by
          simp [escapeChars, escChar]]
        rw [psb_escaped '\\' '\\' _ (by decide) (by decide), ih]
      · by_cases h3 : c.toNat < 32
        · rw [show escapeChars (c :: cs) ++ '"' :: rest
              = '\\' :: 'u' :: '0' :: '0' :: hexDigitChar (c.toNat / 16)
                :: hexDigitChar (c.toNat % 16) :: (escapeChars cs ++ '"' :: rest) from by
            simp [escapeChars, escChar, h1, h2, h3]]
          rw [psb_unicode '0' '0' (hexDigitChar (c.toNat / 16)) (hexDigitChar (c.toNat % 16))
            0 0 (c.toNat / 16) (c.toNat % 16) _
            (by decide) (by decide)
            (hexVal_hexDigitChar _ (by omega)) (hexVal_hexDigitChar _ (by omega))
            (by omega), ih]
          have hc : ((0 * 16 + 0) * 16 + c.toNat / 16) * 16 + c.toNat % 16 = c.toNat := by
            omega
          rw [hc, Char.ofNat_toNat]
        · rw [show escapeChars (c :: cs) ++ '"' :: rest
              = c :: (escapeChars cs ++ '"' :: rest) from by
            simp [escapeChars, escChar, h1, h2, h3]]
          rw [psb_plain c _ h1 h2 h3, ih]

/-! Digit and number lemmas. -/

theorem isDigitCh_digitChar (d : Nat) (h : d < 10) : isDigitCh (digitChar d) = true := by
  interval_cases d <;> decide

theorem digitVal_digitChar (d : Nat) (h : d < 10) : digitVal (digitChar d) = d := by
  interval_cases d <;> decide

theorem digitChar_ne_minus (d : Nat) (h : d < 10) : digitChar d ≠ '-' := by
  interval_cases d <;> decide

theorem digitChar_eq_zero_iff (d : Nat) (h : d < 10) : (digitChar d = '0') ↔ d = 0 := by
  interval_cases d <;> simp <;> decide

theorem numDelim_noDigitHead (rest : List Char) (h : numDelim rest) : noDigitHead rest := by
  cases rest with
  | nil => trivial
  | cons c cs => exact h.2.2.2

theorem parseDigitsAux_stop (rest : List Char) (acc : Nat) (h : noDigitHead rest) :
    parseDigitsAux rest acc = (acc, rest) := by
  cases rest with
  | nil => rfl
  | cons c cs =>
    have hc : isDigitCh c = false := h
    simp [parseDigitsAux, hc]

theorem parseDigitsAux_map (ds : List Nat) (rest : List Char)
    (hds : ∀ d ∈ ds, d < 10) (hrest : noDigitHead rest) :
    ∀ acc : Nat, parseDigitsAux (ds.map digitChar ++ rest) acc
      = (ds.foldl (fun a d => a * 10 + d) acc, rest) := by
  induction ds with
  | nil => intro acc; simpa using parseDigitsAux_stop rest acc hrest
  | cons d ds ih =>
    intro acc
    have hd : d < 10 := hds d (by simp)
    rw [List.map_cons, List.cons_append, parseDigitsAux,
      if_pos (isDigitCh_digitChar d hd), digitVal_digitChar d hd,
      ih (fun x hx => hds x (by simp [hx])), List.foldl_cons]

theorem foldr_eq_ofDigits (l : List Nat) :
    List.foldr (fun x y => y * 10 + x) 0 l = Nat.ofDigits 10 l := by
  induction l with
  | nil => simp [Nat.ofDigits_nil]
  | cons d t ih =>
    simp only [List.foldr_cons, Nat.ofDigits_cons, ih]
    ring

theorem foldl_digits_reverse (n : Nat) :
    (Nat.digits 10 n).reverse.foldl (fun a d => a * 10 + d) 0 = n := by
  rw [List.foldl_reverse, foldr_eq_ofDigits]
  exact_mod_cast Nat.ofDigits_digits 10 n

theorem natDigitsRevF_eq (f : Nat) : ∀ n, n ≤ f → natDigitsRevF f n = Nat.digits 10 n := by
  induction f with
  | zero =>
    intro n hn
    interval_cases n
    simp [natDigitsRevF]
  | succ f ih =>
    intro n hn
    by_cases h0 : n = 0
    · simp [natDigitsRevF, h0]
    · rw [natDigitsRevF, if_neg h0]
      have hdiv : n / 10 ≤ f := by
        have := Nat.div_lt_self (Nat.pos_of_ne_zero h0) (by norm_num : 1 < 10)
        omega
      rw [ih (n / 10) hdiv, ← Nat.digits_def' (by norm_num : 1 < 10) (Nat.pos_of_ne_zero h0)]

theorem renderNat_zero : renderNat 0 = ['0'] := by
  simp [renderNat]
  decide

theorem renderNat_eq (n : Nat) (h : n ≠ 0) :
    renderNat n = ((Nat.digits 10 n).reverse).map digitChar := by
  simp [renderNat, h, natDigitsRev, natDigitsRevF_eq n n le_rfl]

theorem parse_renderNat (n : Nat) (rest : List Char) (h : noDigitHead rest) :
    parseDigitsAux (renderNat n ++ rest) 0 = (n, rest) := by
  by_cases hn : n = 0
  · subst hn
    have := parseDigitsAux_map [0] rest (by simp) h 0
    simpa [renderNat_zero] using this
  · rw [renderNat_eq n hn]
    rw [parseDigitsAux_map _ rest
      (fun d hd => Nat.digits_lt_base (by norm_num) (List.mem_reverse.mp hd)) h 0]
    rw [foldl_digits_reverse]

theorem renderNat_head (n : Nat) :
    ∃ d t, renderNat n = digitChar d :: t ∧ d < 10 ∧ (n ≠ 0 → d ≠ 0) := by
  by_cases hn : n = 0
  · subst hn
    exact ⟨0, [], by rw [renderNat_zero]; decide, by norm_num, fun h => absurd rfl h⟩
  · have hne : Nat.digits 10 n ≠ [] := Nat.digits_ne_nil_iff_ne_zero.mpr hn
    cases hr : (Nat.digits 10 n).reverse with
    | nil =>
      rw [List.reverse_eq_nil_iff] at hr
      exact absurd hr hne
    | cons d t =>
      refine ⟨d, t.map digitChar, ?_, ?_, fun _ => ?_⟩
      · rw [renderNat_eq n hn, hr, List.map_cons]
      · exact Nat.digits_lt_base (by norm_num) (List.mem_reverse.mp (by rw [hr]; simp))
      · have h1 : (Nat.digits 10 n).getLast? = some d := by
          rw [← List.head?_reverse, hr]
          rfl
        have h2 := Nat.getLast_digit_ne_zero 10 hn
        rw [List.getLast?_eq_getLast _ hne] at h1
        injection h1 with h1
        rw [← h1]
        exact h2

theorem stripZerosF_self (f n : Nat) (e : Int) (h : n = 0 ∨ n % 10 ≠ 0) :
    stripZerosF f n e = (n, e) := by
  cases f with
  | zero => rfl
  | succ f => rcases h with h | h <;> simp [stripZerosF, h]

theorem stripZerosF_mul_pow (k : Nat) : ∀ (f : Nat) (a : Nat) (e : Int), a ≠ 0 →
    a % 10 ≠ 0 → k ≤ f → stripZerosF f (a * 10 ^ k) e = (a, e + k) := by
  induction k with
  | zero =>
    intro f a e ha h10 _
    rw [pow_zero, mul_one, stripZerosF_self f a e (Or.inr h10)]
    norm_num
  | succ k ih =>
    intro f a e ha h10 hf
    obtain ⟨f', rfl⟩ : ∃ f', f = f' + 1 := ⟨f - 1, by omega⟩
    have hm : a * 10 ^ (k + 1) = (a * 10 ^ k) * 10 := by ring
    have hc1 : a * 10 ^ (k + 1) ≠ 0 :=
      Nat.mul_ne_zero ha (pow_ne_zero _ (by norm_num))
    have hc2 : a * 10 ^ (k + 1) % 10 = 0 := by
      rw [hm]
      exact Nat.mul_mod_left _ 10
    rw [stripZerosF, if_pos ⟨hc1, hc2⟩,
      show a * 10 ^ (k + 1) / 10 = a * 10 ^ k from by
        rw [hm]
        exact Nat.mul_div_cancel _ (by norm_num),
      ih f' a (e + 1) ha h10 (by omega)]
    congr 1
    push_cast
    ring

theorem stripZerosF_norm (f : Nat) : ∀ (n : Nat) (e : Int), n < 10 ^ f →
    (stripZerosF f n e).1 = 0 ∨ (stripZerosF f n e).1 % 10 ≠ 0 := by
  induction f with
  | zero =>
    intro n e h
    interval_cases n
    simp [stripZerosF]
  | succ f ih =>
    intro n e h
    by_cases hc : n ≠ 0 ∧ n % 10 = 0
    · rw [stripZerosF, if_pos hc]
      refine ih (n / 10) (e + 1) ?_
      have h10 : 10 ^ (f + 1) = 10 ^ f * 10 := by ring
      omega
    · rw [stripZerosF, if_neg hc]
      simp only []
      omega

theorem parseFracPart_delim (rest : List Char) (h : numDelim rest) :
    parseFracPart rest = some (0, 0, rest) := by
  cases rest with
  | nil => rfl
  | cons c cs => simp [parseFracPart, h.1]

theorem parseExpPart_delim (rest : List Char) (h : numDelim rest) :
    parseExpPart rest = some (0, rest) := by
  cases rest with
  | nil => rfl
  | cons c cs => simp [parseExpPart, h.2.1, h.2.2.1]

theorem renderInt_nonneg (i : Int) (h : 0 ≤ i) : renderInt i = renderNat i.natAbs := by
  simp [renderInt, not_lt.mpr h]

theorem renderInt_neg (i : Int) (h : i < 0) : renderInt i = '-' :: renderNat i.natAbs := by
  simp [renderInt, h]

theorem parseNumBody_run (neg : Bool) (n : Nat) (hn : n ≠ 0) (tail : List Char)
    (h1 : noDigitHead tail)
    (hfrac : parseFracPart tail = some (0, 0, tail))
    (ex : Int) (cs4 : List Char) (hexp : parseExpPart tail = some (ex, cs4)) :
    parseNumBody neg (renderNat n ++ tail) =
      some (.num (if neg then -((stripZeros n ex).1 : Int) else ((stripZeros n ex).1 : Int))
        (if (stripZeros n ex).1 = 0 then 0 else (stripZeros n ex).2), cs4) := by
  obtain ⟨d, t, hsh, hd10, hdne⟩ := renderNat_head n
  have hdz : ¬ (digitChar d = '0') := by
    rw [digitChar_eq_zero_iff d hd10]
    exact hdne hn
  have hip : parseDigitsAux (digitChar d :: (t ++ tail)) 0 = (n, tail) := by
    rw [← List.cons_append, ← hsh]
    exact parse_renderNat n tail h1
  rw [hsh, List.cons_append, parseNumBody.eq_def]
  simp only [isDigitCh_digitChar d hd10, if_true, if_neg hdz, hip, hfrac, hexp]
  simp [mkNum, pow_zero]

theorem parseNumBody_zero (neg : Bool) (tail : List Char)
    (hfrac : parseFracPart tail = some (0, 0, tail))
    (hexp : parseExpPart tail = some (0, tail)) :
    parseNumBody neg (renderNat 0 ++ tail) = some (.num 0 0, tail) := by
  rw [renderNat_zero, List.singleton_append, parseNumBody.eq_def]
  simp only [show isDigitCh '0' = true from by decide, if_true, if_pos rfl, hfrac, hexp]
  cases neg <;> simp [mkNum, stripZeros, stripZerosF]

theorem parseExpPart_neg_exp (e : Int) (he : e < 0) (rest : List Char)
    (hrest : numDelim rest) :
    parseExpPart ('e' :: (renderInt e ++ rest)) = some (e, rest) := by
  rw [renderInt_neg e he, List.cons_append]
  obtain ⟨d, t, hsh, hd10, hdne⟩ := renderNat_head e.natAbs
  have hda : parseDigitsAux (digitChar d :: (t ++ rest)) 0 = (e.natAbs, rest) := by
    rw [← List.cons_append, ← hsh]
    exact parse_renderNat e.natAbs rest (numDelim_noDigitHead rest hrest)
  rw [hsh, List.cons_append, parseExpPart.eq_def]
  simp [isDigitCh_digitChar d hd10, hda, abs_of_neg he]

theorem parseNumber_renderNum (m e : Int) (rest : List Char)
    (hwf : numNormal m e = true) (hrest : numDelim rest) :
    parseNumber (renderNum m e ++ rest) = some (.num m e, rest) := by
  have hfrac := parseFracPart_delim rest hrest
  have hexp := parseExpPart_delim rest hrest
  have hnd := numDelim_noDigitHead rest hrest
  by_cases he : 0 ≤ e
  · by_cases hm : m = 0
    · have he0 : e = 0 := by
        subst hm
        simpa [numNormal] using hwf
      subst hm
      subst he0
      have hr : renderNum 0 0 = ['0'] := by decide
      rw [hr, List.singleton_append, parseNumber.eq_def]
      simp only [show ¬('0' = '-') from by decide, if_neg]
      have h0 : ('0' :: rest) = renderNat 0 ++ rest := by
        rw [renderNat_zero, List.singleton_append]
      rw [h0]
      exact parseNumBody_zero false rest hfrac hexp
    · have h10 : m.natAbs % 10 ≠ 0 := by
        simpa [numNormal, hm] using hwf
      have ha : m.natAbs ≠ 0 := Int.natAbs_ne_zero.mpr hm
      set k := e.toNat with hk
      have hNabs : (m * 10 ^ k).natAbs = m.natAbs * 10 ^ k := by
        rw [Int.natAbs_mul, Int.natAbs_pow]
        norm_num
      have hstrip : stripZeros (m.natAbs * 10 ^ k) 0 = (m.natAbs, (k : Int)) := by
        rw [stripZeros, stripZerosF_mul_pow k _ m.natAbs 0 ha h10
          (le_of_lt (lt_of_lt_of_le (Nat.lt_pow_self (by norm_num) k)
            (Nat.le_mul_of_pos_left _ (Nat.pos_of_ne_zero ha))))]
        norm_num
      have hkE : (k : Int) = e := by
        rw [hk]
        exact Int.toNat_of_nonneg he
      have hbody : ∀ neg : Bool, parseNumBody neg (renderNat (m.natAbs * 10 ^ k) ++ rest)
          = some (.num (if neg then -(m.natAbs : Int) else (m.natAbs : Int)) e, rest) := by
        intro neg
        rw [parseNumBody_run neg _ (Nat.mul_ne_zero ha (pow_ne_zero _ (by norm_num)))
          rest hnd hfrac 0 rest hexp, hstrip]
        simp [ha, hkE]
      rcases lt_or_le m 0 with hneg | hpos
      · have hN : m * 10 ^ k < 0 := mul_neg_of_neg_of_pos hneg (by positivity)
        simp only [renderNum, if_pos he, ← hk]
        rw [renderInt_neg _ hN, hNabs, List.cons_append, parseNumber.eq_def]
        simp only [if_pos rfl]
        rw [hbody true]
        simp [abs_of_neg hneg]
      · have hN : 0 ≤ m * 10 ^ k := by positivity
        simp only [renderNum, if_pos he, ← hk]
        rw [renderInt_nonneg _ hN, hNabs]
        obtain ⟨d, t, hsh, hd10, hdne⟩ := renderNat_head (m.natAbs * 10 ^ k)
        rw [hsh, List.cons_append, parseNumber.eq_def]
        simp only [if_neg (digitChar_ne_minus d hd10)]
        rw [← List.cons_append, ← hsh, hbody false]
        simp [abs_of_nonneg hpos]
  · have he' : e < 0 := by omega
    have hm : m ≠ 0 := by
      intro h0
      subst h0
      simp [numNormal] at hwf
      omega
    have h10 : m.natAbs % 10 ≠ 0 := by
      simpa [numNormal, hm] using hwf
    have ha : m.natAbs ≠ 0 := Int.natAbs_ne_zero.mpr hm
    have hexpE : parseExpPart ('e' :: (renderInt e ++ rest)) = some (e, rest) :=
      parseExpPart_neg_exp e he' rest hrest
    have hfracE : parseFracPart ('e' :: (renderInt e ++ rest))
        = some (0, 0, 'e' :: (renderInt e ++ rest)) := by
      rw [parseFracPart.eq_def]
      simp
    have hndE : noDigitHead ('e' :: (renderInt e ++ rest)) :=
      (by decide : isDigitCh 'e' = false)
    have hstripE : stripZeros m.natAbs e = (m.natAbs, e) := by
      rw [stripZeros]
      exact stripZerosF_self _ _ _ (Or.inr h10)
    have hbody : ∀ neg : Bool,
        parseNumBody neg (renderNat m.natAbs ++ ('e' :: (renderInt e ++ rest)))
          = some (.num (if neg then -(m.natAbs : Int) else (m.natAbs : Int)) e, rest) := by
      intro neg
      rw [parseNumBody_run neg m.natAbs ha _ hndE hfracE e rest hexpE, hstripE]
      simp [ha]
    have hsplit : renderNum m e ++ rest = renderInt m ++ ('e' :: (renderInt e ++ rest)) := by
      simp only [renderNum, if_neg he]
      simp [List.append_assoc]
    rw [hsplit]
    rcases lt_or_le m 0 with hneg | hpos
    · rw [renderInt_neg _ hneg, List.cons_append, parseNumber.eq_def]
      simp only [if_pos rfl]
      rw [hbody true]
      simp [abs_of_neg hneg]
    · rw [renderInt_nonneg _ hpos]
      obtain ⟨d, t, hsh, hd10, hdne⟩ := renderNat_head m.natAbs
      rw [hsh, List.cons_append, parseNumber.eq_def]
      simp only [if_neg (digitChar_ne_minus d hd10)]
      rw [← List.cons_append, ← hsh, hbody false]
      simp [abs_of_nonneg hpos]

/-! Shape lemmas for rendered text and fuel-cost bounds. -/

theorem strMk_data (s : String) : String.mk s.data = s := by
  cases s
  rfl

theorem numStart_facts (c : Char) (h : c = '-' ∨ ∃ d, d < 10 ∧ c = digitChar d) :
    isWs c = false ∧ c ≠ ']' ∧ c ≠ '"' ∧ c ≠ 'n' ∧ c ≠ 't' ∧ c ≠ 'f' ∧
      c ≠ '[' ∧ c ≠ lbrace := by
  rcases h with h | ⟨d, hd, h⟩ <;> subst h
  · decide
  · interval_cases d <;> decide

theorem renderInt_shape (i : Int) : ∃ c t, renderInt i = c :: t ∧
    (c = '-' ∨ ∃ d, d < 10 ∧ c = digitChar d) := by
  rcases lt_or_le i 0 with h | h
  · rw [renderInt_neg i h]
    exact ⟨'-', _, rfl, Or.inl rfl⟩
  · rw [renderInt_nonneg i h]
    obtain ⟨d, t, hsh, hd10, _⟩ := renderNat_head i.natAbs
    exact ⟨digitChar d, t, hsh, Or.inr ⟨d, hd10, rfl⟩⟩

theorem renderNum_shape (m e : Int) : ∃ c t, renderNum m e = c :: t ∧
    (c = '-' ∨ ∃ d, d < 10 ∧ c = digitChar d) := by
  by_cases he : 0 ≤ e
  · simp only [renderNum, if_pos he]
    exact renderInt_shape _
  · simp only [renderNum, if_neg he]
    obtain ⟨c, t, hsh, hc⟩ := renderInt_shape m
    exact ⟨c, t ++ 'e' :: renderInt e, by rw [hsh, List.cons_append], hc⟩

theorem renderChars_shape (v : Json) : ∃ c t, renderChars v = c :: t ∧
    isWs c = false ∧ c ≠ ']' := by
  cases v with
  | null => exact ⟨'n', _, rfl, by decide, by decide⟩
  | bool b =>
    cases b
    · exact ⟨'f', _, rfl, by decide, by decide⟩
    · exact ⟨'t', _, rfl, by decide, by decide⟩
  | num m e =>
    obtain ⟨c, t, hsh, hc⟩ := renderNum_shape m e
    have hf := numStart_facts c hc
    exact ⟨c, t, by rw [show renderChars (.num m e) = renderNum m e from rfl, hsh],
      hf.1, hf.2.1⟩
  | str s => exact ⟨'"', _, rfl, by decide, by decide⟩
  | arr xs => exact ⟨'[', renderElems xs, rfl, by decide, by decide⟩
  | obj kvs => exact ⟨lbrace, renderMembers kvs, rfl, by decide, by decide⟩

theorem renderLen_pos (v : Json) : 1 ≤ (renderChars v).length := by
  obtain ⟨c, t, hsh, _⟩ := renderChars_shape v
  rw [hsh]
  simp

theorem renderElems_cons_eq (x : Json) (xs : List Json) :
    ∃ t, renderElems (x :: xs) = renderChars x ++ t := by
  cases xs with
  | nil => exact ⟨[']'], rfl⟩
  | cons y ys => exact ⟨',' :: renderElems (y :: ys), rfl⟩

theorem skipWs_render (v : Json) (rest : List Char) :
    skipWs (renderChars v ++ rest) = renderChars v ++ rest := by
  obtain ⟨c, t, hsh, hws, _⟩ := renderChars_shape v
  rw [hsh, List.cons_append, skipWs_not_ws c _ hws]

theorem cost_pos (v : Json) : 1 ≤ cost v := by
  cases v <;> simp [cost]

theorem costElems_pos (xs : List Json) : 1 ≤ costElems xs := by
  cases xs <;> simp [costElems]

theorem costMembers_pos (kvs : List (String × Json)) : 1 ≤ costMembers kvs := by
  cases kvs <;> simp [costMembers]

theorem renderMembers_cons_head (k : String) (v : Json) (kvs : List (String × Json)) :
    ∃ t, renderMembers ((k, v) :: kvs) = '"' :: t := by
  cases kvs with
  | nil =>
    refine ⟨(escapeChars k.data ++ ['"']) ++ (':' :: renderChars v ++ [rbrace]), ?_⟩
    rw [show renderMembers [(k, v)] = renderString k ++ ':' :: renderChars v ++ [rbrace]
      from rfl]
    simp [renderString]
  | cons kv2 kvs =>
    refine ⟨(escapeChars k.data ++ ['"'])
      ++ (':' :: renderChars v ++ ',' :: renderMembers (kv2 :: kvs)), ?_⟩
    rw [show renderMembers ((k, v) :: kv2 :: kvs)
      = renderString k ++ ':' :: renderChars v ++ ',' :: renderMembers (kv2 :: kvs)
      from rfl]
    simp [renderString]


mutual

theorem cost_le_renderLen : ∀ v : Json, cost v ≤ (renderChars v).length
  | .null => by decide
  | .bool b => by cases b <;> decide
  | .num m e => by
    have := renderLen_pos (.num m e)
    simpa [cost] using this
  | .str s => by
    have := renderLen_pos (.str s)
    simpa [cost] using this
  | .arr xs => by
    have h := costElems_le_renderLen xs
    rw [show renderChars (.arr xs) = '[' :: renderElems xs from rfl]
    simp only [cost, List.length_cons]
    omega
  | .obj kvs => by
    have h := costMembers_le_renderLen kvs
    rw [show renderChars (.obj kvs) = lbrace :: renderMembers kvs from rfl]
    simp only [cost, List.length_cons]
    omega

theorem costElems_le_renderLen : ∀ xs : List Json, costElems xs ≤ (renderElems xs).length
  | [] => by decide
  | [x] => by
    have h := cost_le_renderLen x
    have h1 := renderLen_pos x
    rw [show renderElems [x] = renderChars x ++ [']'] from rfl,
      show costElems [x] = 1 + max (cost x) 1 from rfl]
    simp only [List.length_append, List.length_singleton]
    omega
  | x :: y :: ys => by
    have h1 := cost_le_renderLen x
    have h2 := costElems_le_renderLen (y :: ys)
    have h3 := renderLen_pos x
    have h4 := costElems_pos (y :: ys)
    rw [show renderElems (x :: y :: ys) = renderChars x ++ ',' :: renderElems (y :: ys)
      from rfl,
      show costElems (x :: y :: ys) = 1 + max (cost x) (costElems (y :: ys)) from rfl]
    simp only [List.length_append, List.length_cons]
    omega

theorem costMembers_le_renderLen : ∀ kvs : List (String × Json),
    costMembers kvs ≤ (renderMembers kvs).length
  | [] => by decide
  | [(k, v)] => by
    have h := cost_le_renderLen v
    have h1 := renderLen_pos v
    rw [show renderMembers [(k, v)]
      = renderString k ++ ':' :: renderChars v ++ [rbrace] from rfl,
      show costMembers [(k, v)] = 1 + max (cost v) 1 from rfl]
    simp only [List.length_append, List.length_cons, List.length_singleton]
    omega
  | (k, v) :: kv :: kvs => by
    have h1 := cost_le_renderLen v
    have h2 := costMembers_le_renderLen (kv :: kvs)
    have h3 := renderLen_pos v
    have h4 := costMembers_pos (kv :: kvs)
    rw [show renderMembers ((k, v) :: kv :: kvs)
      = renderString k ++ ':' :: renderChars v ++ ',' :: renderMembers (kv :: kvs)
      from rfl,
      show costMembers ((k, v) :: kv :: kvs)
        = 1 + max (cost v) (costMembers (kv :: kvs)) from rfl]
    simp only [List.length_append, List.length_cons]
    omega

end

/-! The serializer/reader round trip: re-reading rendered text yields the
value back (for well-formed values, in any delimiter context). -/

mutual

theorem rtValue : ∀ (fuel : Nat) (v : Json) (rest : List Char),
    cost v ≤ fuel → v.wf = true → numDelim rest →
    parseValue fuel (renderChars v ++ rest) = some (v, rest)
  | 0, v, rest => by
    intro hc _ _
    exact absurd hc (by have := cost_pos v; omega)
  | fuel + 1, v, rest => by
    intro hc hw hd
    cases v with
    | null =>
      show parseValue (fuel + 1) ('n' :: ('u' :: 'l' :: 'l' :: rest)) = some (.null, rest)
      rw [parseValue.eq_def]
      simp [skipWs, isWs, expectLit]
    | bool b =>
      cases b
      · show parseValue (fuel + 1) ('f' :: ('a' :: ('l' :: 's' :: 'e' :: rest)))
          = some (.bool false, rest)
        rw [parseValue.eq_def]
        simp [skipWs, isWs, expectLit]
      · show parseValue (fuel + 1) ('t' :: ('r' :: 'u' :: 'e' :: rest))
          = some (.bool true, rest)
        rw [parseValue.eq_def]
        simp [skipWs, isWs, expectLit]
    | num m e =>
      obtain ⟨c, t, hsh, hcc⟩ := renderNum_shape m e
      have hf := numStart_facts c hcc
      have hwf' : numNormal m e = true := hw
      have hskip : skipWs (c :: (t ++ rest)) = c :: (t ++ rest) :=
        skipWs_not_ws c _ hf.1
      rw [show renderChars (.num m e) = renderNum m e from rfl, hsh, List.cons_append,
        parseValue.eq_def]
      simp only [hskip, if_neg hf.2.2.2.1, if_neg hf.2.2.2.2.1,
        if_neg hf.2.2.2.2.2.1, if_neg hf.2.2.1, if_neg hf.2.2.2.2.2.2.1,
        if_neg hf.2.2.2.2.2.2.2]
      rw [← List.cons_append, ← hsh]
      exact parseNumber_renderNum m e rest hwf' hd
    | str s =>
      rw [show renderChars (.str s) ++ rest
          = '"' :: (escapeChars s.data ++ ('"' :: rest)) from by
        rw [show renderChars (.str s) = '"' :: (escapeChars s.data ++ ['"']) from rfl]
        simp]
      rw [parseValue.eq_def]
      simp [skipWs, isWs, parseStringBody_escape, strMk_data]
    | arr xs =>
      cases xs with
      | nil =>
        show parseValue (fuel + 1) ('[' :: ']' :: rest) = some (.arr [], rest)
        rw [parseValue.eq_def]
        simp [skipWs, isWs]
      | cons x xs' =>
        obtain ⟨c0, t0, hsh0, hws0, hnb0⟩ := renderChars_shape x
        obtain ⟨te, hte⟩ := renderElems_cons_eq x xs'
        have hcost : costElems (x :: xs') ≤ fuel := by
          have hh : cost (.arr (x :: xs')) = 1 + costElems (x :: xs') := rfl
          omega
        have hwf : Json.wfList (x :: xs') = true := hw
        have hE : renderElems (x :: xs') ++ rest = c0 :: (t0 ++ (te ++ rest)) := by
          rw [hte, List.append_assoc, hsh0, List.cons_append]
        have hpe : parseElems fuel (renderElems (x :: xs') ++ rest)
            = some (x :: xs', rest) :=
          rtElems fuel (x :: xs') rest hcost hwf (by simp)
        rw [hE] at hpe
        rw [show renderChars (.arr (x :: xs')) ++ rest
            = '[' :: (renderElems (x :: xs') ++ rest) from by
          rw [show renderChars (.arr (x :: xs')) = '[' :: renderElems (x :: xs') from rfl,
            List.cons_append]]
        rw [hE, parseValue.eq_def]
        have hskip1 : skipWs ('[' :: (c0 :: (t0 ++ (te ++ rest))))
            = '[' :: (c0 :: (t0 ++ (te ++ rest))) := skipWs_not_ws _ _ (by decide)
        have hskip2 : skipWs (c0 :: (t0 ++ (te ++ rest))) = c0 :: (t0 ++ (te ++ rest)) :=
          skipWs_not_ws _ _ hws0
        simp only [hskip1, hskip2]
        simp [hnb0, hpe]
    | obj kvs =>
      cases kvs with
      | nil =>
        show parseValue (fuel + 1) (lbrace :: rbrace :: rest) = some (.obj [], rest)
        rw [parseValue.eq_def]
        have hs0 : skipWs (lbrace :: rbrace :: rest) = lbrace :: rbrace :: rest :=
          skipWs_not_ws _ _ (by decide)
        have hs1 : skipWs (rbrace :: rest) = rbrace :: rest :=
          skipWs_not_ws _ _ (by decide)
        simp [hs0, hs1, show ¬(lbrace = 'n') from by decide,
          show ¬(lbrace = 't') from by decide, show ¬(lbrace = 'f') from by decide,
          show ¬(lbrace = '"') from by decide, show ¬(lbrace = '[') from by decide]
      | cons kv kvs' =>
        obtain ⟨k, v⟩ := kv
        obtain ⟨tm, htm⟩ := renderMembers_cons_head k v kvs'
        have hcost : costMembers ((k, v) :: kvs') ≤ fuel := by
          have hh : cost (.obj ((k, v) :: kvs')) = 1 + costMembers ((k, v) :: kvs') := rfl
          omega
        have hw2 : keysSorted ((k, v) :: kvs') = true ∧
            Json.wfObj ((k, v) :: kvs') = true := by
          simpa [Json.wf, Bool.and_eq_true] using hw
        have hE : renderMembers ((k, v) :: kvs') ++ rest = '"' :: (tm ++ rest) := by
          rw [htm, List.cons_append]
        have hpm : parseMembers fuel (renderMembers ((k, v) :: kvs') ++ rest)
            = some ((k, v) :: kvs', rest) :=
          rtMembers fuel ((k, v) :: kvs') rest hcost hw2.1 hw2.2 (by simp)
        rw [hE] at hpm
        rw [show renderChars (.obj ((k, v) :: kvs')) ++ rest
            = lbrace :: (renderMembers ((k, v) :: kvs') ++ rest) from by
          rw [show renderChars (.obj ((k, v) :: kvs'))
            = lbrace :: renderMembers ((k, v) :: kvs') from rfl, List.cons_append]]
        rw [hE, parseValue.eq_def]
        have hskip1 : skipWs (lbrace :: ('"' :: (tm ++ rest)))
            = lbrace :: ('"' :: (tm ++ rest)) := skipWs_not_ws _ _ (by decide)
        have hskip2 : skipWs ('"' :: (tm ++ rest)) = '"' :: (tm ++ rest) :=
          skipWs_not_ws _ _ (by decide)
        simp only [hskip1, hskip2]
        simp [hpm, show ¬(lbrace = 'n') from by decide,
          show ¬(lbrace = 't') from by decide, show ¬(lbrace = 'f') from by decide,
          show ¬(lbrace = '"') from by decide, show ¬(lbrace = '[') from by decide,
          show ¬('"' = rbrace) from by decide]

theorem rtElems : ∀ (fuel : Nat) (xs : List Json) (rest : List Char),
    costElems xs ≤ fuel → Json.wfList xs = true → xs ≠ [] →
    parseElems fuel (renderElems xs ++ rest) = some (xs, rest)
  | 0, xs, rest => by
    intro hc _ _
    exact absurd hc (by have := costElems_pos xs; omega)
  | fuel + 1, [], rest => by
    intro _ _ h
    exact absurd rfl h
  | fuel + 1, [x], rest => by
    intro hc hw _
    have hcx : cost x ≤ fuel := by
      have hh : costElems [x] = 1 + max (cost x) 1 := rfl
      omega
    have hwx : x.wf = true := by
      have hh : (x.wf && Json.wfList []) = true := hw
      simp at hh
      exact hh.1
    have hv : parseValue fuel (renderChars x ++ (']' :: rest)) = some (x, ']' :: rest) :=
      rtValue fuel x (']' :: rest) hcx hwx (numDelim_of _ _ (by decide))
    rw [show renderElems [x] ++ rest = renderChars x ++ (']' :: rest) from by
      rw [show renderElems [x] = renderChars x ++ [']'] from rfl]
      simp]
    rw [parseElems.eq_def]
    simp [hv, skipWs, isWs]
  | fuel + 1, x :: y :: ys, rest => by
    intro hc hw _
    have hcx : cost x ≤ fuel := by
      have hh : costElems (x :: y :: ys) = 1 + max (cost x) (costElems (y :: ys)) := rfl
      omega
    have hcys : costElems (y :: ys) ≤ fuel := by
      have hh : costElems (x :: y :: ys) = 1 + max (cost x) (costElems (y :: ys)) := rfl
      omega
    have hwx : x.wf = true := by
      have hh : (x.wf && Json.wfList (y :: ys)) = true := hw
      simp at hh
      exact hh.1
    have hwys : Json.wfList (y :: ys) = true := by
      have hh : (x.wf && Json.wfList (y :: ys)) = true := hw
      simp at hh
      exact hh.2
    have hv : parseValue fuel (renderChars x ++ (',' :: (renderElems (y :: ys) ++ rest)))
        = some (x, ',' :: (renderElems (y :: ys) ++ rest)) :=
      rtValue fuel x _ hcx hwx (numDelim_of _ _ (by decide))
    have hrec : parseElems fuel (renderElems (y :: ys) ++ rest) = some (y :: ys, rest) :=
      rtElems fuel (y :: ys) rest hcys hwys (by simp)
    rw [show renderElems (x :: y :: ys) ++ rest
        = renderChars x ++ (',' :: (renderElems (y :: ys) ++ rest)) from by
      rw [show renderElems (x :: y :: ys)
        = renderChars x ++ ',' :: renderElems (y :: ys) from rfl]
      simp]
    rw [parseElems.eq_def]
    simp [hv, skipWs, isWs, hrec]

theorem rtMembers : ∀ (fuel : Nat) (kvs : List (String × Json)) (rest : List Char),
    costMembers kvs ≤ fuel → keysSorted kvs = true → Json.wfObj kvs = true → kvs ≠ [] →
    parseMembers fuel (renderMembers kvs ++ rest) = some (kvs, rest)
  | 0, kvs, rest => by
    intro hc _ _ _
    exact absurd hc (by have := costMembers_pos kvs; omega)
  | fuel + 1, [], rest => by
    intro _ _ _ h
    exact absurd rfl h
  | fuel + 1, [(k, v)], rest => by
    intro hc _ hwo _
    have hcv : cost v ≤ fuel := by
      have hh : costMembers [(k, v)] = 1 + max (cost v) 1 := rfl
      omega
    have hwv : v.wf = true := by
      have hh : (v.wf && Json.wfObj []) = true := hwo
      simp at hh
      exact hh.1
    have hv : parseValue fuel (renderChars v ++ (rbrace :: rest))
        = some (v, rbrace :: rest) :=
      rtValue fuel v (rbrace :: rest) hcv hwv (numDelim_of _ _ (by decide))
    rw [show renderMembers [(k, v)] ++ rest
        = '"' :: (escapeChars k.data ++ ('"' :: (':' :: (renderChars v
          ++ (rbrace :: rest))))) from by
      rw [show renderMembers [(k, v)]
        = renderString k ++ ':' :: renderChars v ++ [rbrace] from rfl]
      simp [renderString]]
    rw [parseMembers.eq_def]
    have hs0 : skipWs ('"' :: (escapeChars k.data ++ ('"' :: (':' :: (renderChars v
        ++ (rbrace :: rest)))))) = '"' :: (escapeChars k.data ++ ('"' :: (':' :: (renderChars v
        ++ (rbrace :: rest))))) := skipWs_not_ws _ _ (by decide)
    have hs1 : skipWs (':' :: (renderChars v ++ (rbrace :: rest)))
        = ':' :: (renderChars v ++ (rbrace :: rest)) := skipWs_not_ws _ _ (by decide)
    have hs2 : skipWs (rbrace :: rest) = rbrace :: rest := skipWs_not_ws _ _ (by decide)
    simp [hs0, hs1, hs2, parseStringBody_escape, hv, strMk_data,
      show ¬(rbrace = ',') from by decide]
  | fuel + 1, (k, v) :: (k2, v2) :: kvs, rest => by
    intro hc hso hwo _
    have hcv : cost v ≤ fuel := by
      have hh : costMembers ((k, v) :: (k2, v2) :: kvs)
        = 1 + max (cost v) (costMembers ((k2, v2) :: kvs)) := rfl
      omega
    have hctl : costMembers ((k2, v2) :: kvs) ≤ fuel := by
      have hh : costMembers ((k, v) :: (k2, v2) :: kvs)
        = 1 + max (cost v) (costMembers ((k2, v2) :: kvs)) := rfl
      omega
    have hso2 : strLt k k2 = true ∧ keysSorted ((k2, v2) :: kvs) = true := by
      have hh : (ltHeadKey k ((k2, v2) :: kvs) && keysSorted ((k2, v2) :: kvs)) = true :=
        hso
      simpa [ltHeadKey] using hh
    have hwo2 : v.wf = true ∧ Json.wfObj ((k2, v2) :: kvs) = true := by
      have hh : (v.wf && Json.wfObj ((k2, v2) :: kvs)) = true := hwo
      simpa using hh
    have hv : parseValue fuel (renderChars v
          ++ (',' :: (renderMembers ((k2, v2) :: kvs) ++ rest)))
        = some (v, ',' :: (renderMembers ((k2, v2) :: kvs) ++ rest)) :=
      rtValue fuel v _ hcv hwo2.1 (numDelim_of _ _ (by decide))
    have hrec : parseMembers fuel (renderMembers ((k2, v2) :: kvs) ++ rest)
        = some ((k2, v2) :: kvs, rest) :=
      rtMembers fuel ((k2, v2) :: kvs) rest hctl hso2.2 hwo2.2 (by simp)
    rw [show renderMembers ((k, v) :: (k2, v2) :: kvs) ++ rest
        = '"' :: (escapeChars k.data ++ ('"' :: (':' :: (renderChars v
          ++ (',' :: (renderMembers ((k2, v2) :: kvs) ++ rest)))))) from by
      rw [show renderMembers ((k, v) :: (k2, v2) :: kvs)
        = renderString k ++ ':' :: renderChars v ++ ',' :: renderMembers ((k2, v2) :: kvs)
        from rfl]
      simp [renderString]]
    rw [parseMembers.eq_def]
    have hs0 : skipWs ('"' :: (escapeChars k.data ++ ('"' :: (':' :: (renderChars v
        ++ (',' :: (renderMembers ((k2, v2) :: kvs) ++ rest)))))))
        = '"' :: (escapeChars k.data ++ ('"' :: (':' :: (renderChars v
        ++ (',' :: (renderMembers ((k2, v2) :: kvs) ++ rest)))))) :=
      skipWs_not_ws _ _ (by decide)
    have hs1 : skipWs (':' :: (renderChars v ++ (',' :: (renderMembers ((k2, v2) :: kvs)
        ++ rest)))) = ':' :: (renderChars v ++ (',' :: (renderMembers ((k2, v2) :: kvs)
        ++ rest))) := skipWs_not_ws _ _ (by decide)
    have hs2 : skipWs (',' :: (renderMembers ((k2, v2) :: kvs) ++ rest))
        = ',' :: (renderMembers ((k2, v2) :: kvs) ++ rest) := skipWs_not_ws _ _ (by decide)
    simp [hs0, hs1, hs2, parseStringBody_escape, hv, strMk_data, hrec,
      insertKV_cons_of_lt k k2 v v2 kvs hso2.1]

end

theorem parse_render (v : Json) (h : v.wf = true) : parse (render v) = some v := by
  have hrt := rtValue ((renderChars v).length + 1) v []
    (le_trans (cost_le_renderLen v) (by omega)) h trivial
  rw [List.append_nil] at hrt
  unfold parse
  rw [show (render v).data = renderChars v from rfl,
    show (render v).length = (renderChars v).length from rfl, hrt]
  simp [skipWs]

/-! Every tree `parse` produces is well-formed. -/

theorem stripZeros_norm (n : Nat) (e : Int) :
    (stripZeros n e).1 = 0 ∨ (stripZeros n e).1 % 10 ≠ 0 :=
  stripZerosF_norm n n e (Nat.lt_pow_self (by norm_num) n)

theorem mkNum_wf (neg : Bool) (m0 : Nat) (e0 : Int) : (mkNum neg m0 e0).wf = true := by
  have hnorm := stripZeros_norm m0 e0
  by_cases hz : (stripZeros m0 e0).1 = 0
  · cases neg <;> simp [mkNum, hz, Json.wf, numNormal]
  · rcases hnorm with h | h
    · exact absurd h hz
    · cases neg <;> simp [mkNum, hz, Json.wf, numNormal, h]

theorem parseNumBody_wf (neg : Bool) (cs : List Char) (v : Json) (rest : List Char)
    (h : parseNumBody neg cs = some (v, rest)) : v.wf = true := by
  rw [parseNumBody.eq_def] at h
  split at h
  · simp at h
  · split at h
    · split at h
      · try simp only [] at h
        split at h
        · split at h
          · simp at h
            rw [← h.1]
            exact mkNum_wf _ _ _
          · simp at h
        · simp at h
      · try simp only [] at h
        split at h
        · split at h
          · simp at h
            rw [← h.1]
            exact mkNum_wf _ _ _
          · simp at h
        · simp at h
    · simp at h

theorem parseNumber_wf (cs : List Char) (v : Json) (rest : List Char)
    (h : parseNumber cs = some (v, rest)) : v.wf = true := by
  rw [parseNumber.eq_def] at h
  split at h
  · simp at h
  · split at h <;> exact parseNumBody_wf _ _ _ _ h

mutual

theorem parseValue_wf : ∀ (fuel : Nat) (cs : List Char) (v : Json) (rest : List Char),
    parseValue fuel cs = some (v, rest) → v.wf = true
  | 0, cs, v, rest => by
    intro h
    rw [parseValue.eq_def] at h
    simp at h
  | fuel + 1, cs, v, rest => by
    intro h
    rw [parseValue.eq_def] at h
    simp only [] at h
    split at h
    · simp at h
    · split at h
      · obtain ⟨r, _, hvr⟩ := Option.map_eq_some'.mp h
        have hv : Json.null = v := congrArg Prod.fst hvr
        rw [← hv]
        rfl
      · split at h
        · obtain ⟨r, _, hvr⟩ := Option.map_eq_some'.mp h
          have hv : Json.bool true = v := congrArg Prod.fst hvr
          rw [← hv]
          rfl
        · split at h
          · obtain ⟨r, _, hvr⟩ := Option.map_eq_some'.mp h
            have hv : Json.bool false = v := congrArg Prod.fst hvr
            rw [← hv]
            rfl
          · split at h
            · obtain ⟨sr, _, hvr⟩ := Option.map_eq_some'.mp h
              have hv : Json.str (String.mk sr.1) = v := congrArg Prod.fst hvr
              rw [← hv]
              rfl
            · split at h
              · split at h
                · simp at h
                  rw [← h.1]
                  rfl
                · obtain ⟨xr, hpe, hvr⟩ := Option.map_eq_some'.mp h
                  have hv : Json.arr xr.1 = v := congrArg Prod.fst hvr
                  rw [← hv]
                  exact parseElems_wf fuel _ xr.1 xr.2 hpe
              · split at h
                · split at h
                  · simp at h
                  · split at h
                    · simp at h
                      rw [← h.1]
                      rfl
                    · obtain ⟨mr, hpm, hvr⟩ := Option.map_eq_some'.mp h
                      have hv : Json.obj mr.1 = v := congrArg Prod.fst hvr
                      rw [← hv]
                      have hw := parseMembers_wf fuel _ mr.1 mr.2 hpm
                      show (keysSorted mr.1 && Json.wfObj mr.1) = true
                      simp [hw.1, hw.2]
                · exact parseNumber_wf _ _ _ h

theorem parseElems_wf : ∀ (fuel : Nat) (cs : List Char) (xs : List Json) (rest : List Char),
    parseElems fuel cs = some (xs, rest) → Json.wfList xs = true
  | 0, cs, xs, rest => by
    intro h
    rw [parseElems.eq_def] at h
    simp at h
  | fuel + 1, cs, xs, rest => by
    intro h
    rw [parseElems.eq_def] at h
    simp only [] at h
    cases hpv : parseValue fuel cs with
    | none => rw [hpv] at h; simp at h
    | some vr =>
      obtain ⟨v1, rest1⟩ := vr
      rw [hpv] at h
      simp only [] at h
      have hwv1 := parseValue_wf fuel cs v1 rest1 hpv
      split at h
      · split at h
        · rename_i vs r3 hpe
          simp at h
          rw [← h.1]
          have hrec := parseElems_wf fuel _ vs r3 hpe
          show (v1.wf && Json.wfList vs) = true
          simp [hwv1, hrec]
        · simp at h
      · simp at h
        rw [← h.1]
        show (v1.wf && Json.wfList []) = true
        simp [hwv1, Json.wfList]
      · simp at h

theorem parseMembers_wf : ∀ (fuel : Nat) (cs : List Char) (kvs : List (String × Json))
      (rest : List Char), parseMembers fuel cs = some (kvs, rest) →
      keysSorted kvs = true ∧ Json.wfObj kvs = true
  | 0, cs, kvs, rest => by
    intro h
    rw [parseMembers.eq_def] at h
    simp at h
  | fuel + 1, cs, kvs, rest => by
    intro h
    rw [parseMembers.eq_def] at h
    simp only [] at h
    split at h
    · simp at h
    · split at h
      · split at h
        · simp at h
        · rename_i kc r2 hps
          split at h
          · split at h
            · simp at h
            · rename_i v r4 hpv
              have hwv := parseValue_wf fuel _ v r4 hpv
              split at h
              · simp at h
              · split at h
                · split at h
                  · rename_i kvs2 r6 hpm
                    simp at h
                    rw [← h.1]
                    have hrec := parseMembers_wf fuel _ kvs2 r6 hpm
                    exact ⟨insertKV_sorted _ v kvs2 hrec.1,
                      insertKV_wfObj _ v kvs2 hwv hrec.2⟩
                  · simp at h
                · split at h
                  · simp at h
                    rw [← h.1]
                    constructor
                    · show (ltHeadKey (String.mk kc) [] && keysSorted []) = true
                      simp [ltHeadKey, keysSorted]
                    · show (v.wf && Json.wfObj []) = true
                      simp [hwv, Json.wfObj]
                  · simp at h
          · simp at h
      · simp at h

end

theorem parse_wf (s : String) (v : Json) (h : parse s = some v) : v.wf = true := by
  unfold parse at h
  cases hpv : parseValue (s.length + 1) s.data with
  | none => rw [hpv] at h; simp at h
  | some vr =>
    obtain ⟨v1, rest1⟩ := vr
    rw [hpv] at h
    simp only [] at h
    by_cases hs : skipWs rest1 = []
    · rw [if_pos hs] at h
      have hv := Option.some.inj h
      rw [← hv]
      exact parseValue_wf _ _ _ _ hpv
    · rw [if_neg hs] at h
      simp at h

/-- Claim C5: canonicalization is idempotent — whenever `NormalizeJSON`
succeeds, applying it to its own output succeeds and returns that output
unchanged. -/
theorem NormalizeJSON_idempotent (x y : String) (h : NormalizeJSON x = some y) :
    NormalizeJSON y = some y := by
  unfold NormalizeJSON at h ⊢
  cases hp : parse x with
  | none => rw [hp] at h; simp at h
  | some v =>
    rw [hp] at h
    simp at h
    rw [← h, parse_render v (parse_wf x v hp)]
    rfl

/-- Witness for claim C5. -/
theorem NormalizeJSON_idempotent_witness :
    NormalizeJSON "\x7b \"b\" : 2, \"a\" : 1 \x7d" = some "\x7b\"a\":1,\"b\":2\x7d" ∧
      NormalizeJSON "\x7b\"a\":1,\"b\":2\x7d" = some "\x7b\"a\":1,\"b\":2\x7d" :=
  ⟨by decide, NormalizeJSON_idempotent "\x7b \"b\" : 2, \"a\" : 1 \x7d" _ (by decide)⟩

/-- Claim C6: `NormalizeJSON` is a pure format transform — parsing its
output yields exactly the tree parsed from its input (no normalization
applied: null values and optional-set fields are retained, array element
order is unchanged; only key order, whitespace and numeric literal form
may differ in the text). -/
theorem NormalizeJSON_pure_format (x y : String) (h : NormalizeJSON x = some y) :
    parse y = parse x := by
  unfold NormalizeJSON at h
  cases hp : parse x with
  | none => rw [hp] at h; simp at h
  | some v =>
    rw [hp] at h
    simp at h
    rw [← h, parse_render v (parse_wf x v hp)]

/-- Witness for claim C6: a value containing a null and an optional-set
field keeps both through canonicalization. -/
theorem NormalizeJSON_pure_format_witness :
    NormalizeJSON "\x7b \"executeOnce\" : false, \"a\" : null \x7d"
        = some "\x7b\"a\":null,\"executeOnce\":false\x7d" ∧
      parse "\x7b\"a\":null,\"executeOnce\":false\x7d"
        = parse "\x7b \"executeOnce\" : false, \"a\" : null \x7d" :=
  ⟨by decide,
    NormalizeJSON_pure_format "\x7b \"executeOnce\" : false, \"a\" : null \x7d" _
      (by decide)⟩

end Provider
